import Mathlib

/-!
Verification development for the nanojack rolling-log writer
(`nanojack.go`).  The Go code is shallowly embedded: file contents and
paths are lists of characters, the filesystem is a finite association
list from paths to contents, and each Go function that the claims
touch is translated into a Lean function over that state.  Go's I/O
failure modes that the claims speak about (the underlying `file.Write`
error, the rename failure inside `moveCreate`, failure of file
creation) are modelled by explicit oracle parameters; the remaining
I/O operations are modelled as succeeding, which is the path the
claims describe.
-/

set_option linter.unusedVariables false
set_option linter.unnecessarySeqFocus false

namespace Nanojack

/-- Go strings and byte buffers are modelled as lists of characters. -/
abbrev Str := List Char

/-! ### Finite maps as association lists

The filesystem is a finite map from paths to file contents.  `put`
removes any previous binding so that the key list stays duplicate
free, matching a real directory listing. -/

/-- Finite association list map. -/
def AList (κ ν : Type) : Type := List (κ × ν)

namespace AList

variable {κ ν : Type} [DecidableEq κ]

/-- Look up a key. -/
def look : AList κ ν → κ → Option ν
  | [], _ => none
  | (a, b) :: r, k => if a = k then some b else look r k

/-- Delete a key. -/
def del : AList κ ν → κ → AList κ ν
  | [], _ => []
  | (a, b) :: r, k => if a = k then del r k else (a, b) :: del r k

/-- Insert or overwrite a key. -/
def put (m : AList κ ν) (k : κ) (v : ν) : AList κ ν :=
  (k, v) :: m.del k

/-- The list of keys present in the map. -/
def keys (m : AList κ ν) : List κ := List.map (·.1) m

@[simp] theorem look_nil (k : κ) : look ([] : AList κ ν) k = none := rfl

@[simp] theorem look_cons (a : κ) (b : ν) (m : AList κ ν) (k : κ) :
    look ((a, b) :: m : AList κ ν) k = if a = k then some b else look m k := rfl

@[simp] theorem look_del_self (m : AList κ ν) (k : κ) : look (m.del k) k = none := by
  induction m with
  | nil => rfl
  | cons e r ih =>
    obtain ⟨a, b⟩ := e
    by_cases h : a = k <;> simp [AList.del, h, ih]

@[simp] theorem look_del_ne (m : AList κ ν) (k k' : κ) (h : k ≠ k') :
    look (m.del k) k' = look m k' := by
  induction m with
  | nil => rfl
  | cons e r ih =>
    obtain ⟨a, b⟩ := e
    by_cases ha : a = k
    · have ha' : a ≠ k' := by rw [ha]; exact h
      simp [AList.del, ha, ha', ih, h]
    · simp [AList.del, ha, ih]

@[simp] theorem look_put_self (m : AList κ ν) (k : κ) (v : ν) :
    look (m.put k v) k = some v := by
  simp [AList.put]

@[simp] theorem look_put_ne (m : AList κ ν) (k k' : κ) (v : ν) (h : k ≠ k') :
    look (m.put k v) k' = look m k' := by
  simp [AList.put, h, look_del_ne m k k' h]

end AList

instance {κ ν : Type} [DecidableEq κ] [DecidableEq ν] : DecidableEq (AList κ ν) :=
  fun a b => List.hasDecEq a b

/-! ### Line counting (`linesInFile`)

`linesInFile` reads the whole file and returns
`len(strings.FieldsFunc(content, c == '\n'))`: the number of maximal
nonempty runs of non-newline characters.  `fieldsAux` is the splitter
(the model of `strings.FieldsFunc` for the newline separator), and
`linesCount` is the run counter that its length equals. -/

/-- Model of `strings.FieldsFunc(s, c == '\n')`: split `s` at newlines,
dropping empty fields.  The first argument accumulates the current
field in reverse. -/
def fieldsAux : Str → Str → List Str
  | acc, [] => if acc = [] then [] else [acc.reverse]
  | acc, c :: rest =>
    if c = '\n' then
      if acc = [] then fieldsAux [] rest else acc.reverse :: fieldsAux [] rest
    else fieldsAux (c :: acc) rest

/-- The fields of a string, splitting at `'\n'` and dropping empty fields. -/
def fields (s : Str) : List Str := fieldsAux [] s

/-- Number of maximal nonempty runs of non-newline characters; the flag
records whether we are currently inside a run. -/
def linesCount : Bool → Str → Nat
  | _, [] => 0
  | inF, c :: rest =>
    if c = '\n' then linesCount false rest
    else (if inF then 0 else 1) + linesCount true rest

/-- Model of `linesInFile` applied to a file with the given content
(the read itself is modelled as succeeding; the caller handles the
error branch). -/
def linesInFile (content : Str) : Nat := (fields content).length

theorem length_fieldsAux (s : Str) : ∀ acc : Str,
    (fieldsAux acc s).length = linesCount (!acc.isEmpty) s + (if acc.isEmpty then 0 else 1) := by
  induction s with
  | nil => intro acc; cases acc <;> simp [fieldsAux, linesCount]
  | cons c rest ih =>
    intro acc
    by_cases hc : c = '\n'
    · cases acc <;> simp [fieldsAux, linesCount, hc, ih []]
    · cases acc with
      | nil =>
        have h2 := ih [c]
        simp [fieldsAux, linesCount, hc, h2]
        omega
      | cons a as =>
        have h2 := ih (c :: a :: as)
        simp [fieldsAux, linesCount, hc, h2]

theorem linesInFile_eq (s : Str) : linesInFile s = linesCount false s := by
  simpa [linesInFile, fields] using length_fieldsAux s []

/-! ### Decimal rendering (`fmt.Sprintf("%d", n)`) and sequential names -/

/-- The character for a decimal digit. -/
def digitChar (d : Nat) : Char := Char.ofNat (48 + d)

/-- Structural helper for `natStr`; the fuel bounds the number of
digits so that the recursion is structural (and kernel-evaluable). -/
def natStrAux : Nat → Nat → Str
  | 0, _ => []
  | fuel + 1, n => if n < 10 then [digitChar n] else natStrAux fuel (n / 10) ++ [digitChar (n % 10)]

/-- Decimal rendering of a natural number, most significant digit first;
models `fmt.Sprintf("%d", n)` for a non-negative value. -/
def natStr (n : Nat) : Str := natStrAux (n + 1) n

theorem natStrAux_eq_digits : ∀ (n fuel : Nat), 0 < n → n ≤ fuel →
    natStrAux fuel n = List.map digitChar (Nat.digits 10 n).reverse := by
  intro n
  induction n using Nat.strong_induction_on with
  | _ n ih =>
    intro fuel hn hfuel
    cases fuel with
    | zero => omega
    | succ fuel =>
      by_cases h10 : n < 10
      · rw [natStrAux, if_pos h10]
        rw [Nat.digits_def' (by norm_num : (1 : Nat) < 10) hn]
        rw [Nat.div_eq_of_lt h10]
        simp [Nat.mod_eq_of_lt h10]
      · rw [natStrAux, if_neg h10]
        have hdiv : 0 < n / 10 := Nat.div_pos (by omega) (by norm_num)
        have hlt : n / 10 < n := Nat.div_lt_self hn (by norm_num)
        rw [ih (n / 10) hlt fuel hdiv (by omega)]
        rw [Nat.digits_def' (by norm_num : (1 : Nat) < 10) hn]
        simp

theorem natStr_eq_digits (n : Nat) :
    natStr n = if n = 0 then ['0'] else List.map digitChar (Nat.digits 10 n).reverse := by
  by_cases hn : n = 0
  · subst hn
    rw [if_pos rfl]
    decide
  · rw [if_neg hn, natStr, natStrAux_eq_digits n (n + 1) (by omega) (by omega)]

/-- Sequential backup name: `fmt.Sprintf("%s.%d", name, n)`. -/
def seqName (name : Str) (n : Nat) : Str := name ++ '.' :: natStr n

theorem toNat_digitChar {a : Nat} (ha : a < 10) : (digitChar a).toNat = 48 + a := by
  interval_cases a <;> rfl

theorem digitChar_inj {a b : Nat} (ha : a < 10) (hb : b < 10)
    (h : digitChar a = digitChar b) : a = b := by
  have := congrArg Char.toNat h
  rw [toNat_digitChar ha, toNat_digitChar hb] at this
  omega

theorem map_digitChar_inj : ∀ (l1 l2 : List Nat), (∀ x ∈ l1, x < 10) → (∀ x ∈ l2, x < 10) →
    List.map digitChar l1 = List.map digitChar l2 → l1 = l2 := by
  intro l1
  induction l1 with
  | nil => intro l2 _ _ h; cases l2 <;> simp_all
  | cons a r ih =>
    intro l2 h1 h2 h
    cases l2 with
    | nil => simp_all
    | cons b r2 =>
      simp only [List.map_cons, List.cons.injEq] at h
      have hab : a = b := digitChar_inj (h1 a (by simp)) (h2 b (by simp)) h.1
      have := ih r2 (fun x hx => h1 x (by simp [hx])) (fun x hx => h2 x (by simp [hx])) h.2
      simp [hab, this]

theorem natStr_eq_single_zero {n : Nat} (hn : n ≠ 0)
    (h : List.map digitChar (Nat.digits 10 n).reverse = ['0']) : False := by
  have hlen := congrArg List.length h
  simp only [List.length_map, List.length_reverse, List.length_cons, List.length_nil] at hlen
  obtain ⟨d, hd⟩ := List.length_eq_one.mp hlen
  rw [hd] at h
  simp only [List.reverse_cons, List.reverse_nil, List.nil_append, List.map_cons,
    List.map_nil] at h
  have hd10 : d < 10 := Nat.digits_lt_base (by norm_num) (by rw [hd]; simp)
  have hchar : digitChar d = digitChar 0 := by
    rw [show digitChar 0 = '0' from by decide]
    exact (List.cons.injEq _ _ _ _).mp h |>.1
  have hd0 : d = 0 := digitChar_inj hd10 (by norm_num) hchar
  have := congrArg (Nat.ofDigits 10) hd
  rw [Nat.ofDigits_digits] at this
  rw [hd0] at this
  simp [Nat.ofDigits] at this
  exact hn this

theorem natStr_inj {m n : Nat} (h : natStr m = natStr n) : m = n := by
  by_cases hm : m = 0 <;> by_cases hn : n = 0
  · omega
  · exfalso
    rw [natStr_eq_digits, natStr_eq_digits, if_pos hm, if_neg hn] at h
    exact natStr_eq_single_zero hn h.symm
  · exfalso
    rw [natStr_eq_digits, natStr_eq_digits, if_neg hm, if_pos hn] at h
    exact natStr_eq_single_zero hm h
  · rw [natStr_eq_digits, natStr_eq_digits, if_neg hm, if_neg hn] at h
    have hd1 : ∀ x ∈ (Nat.digits 10 m).reverse, x < 10 := by
      intro x hx
      exact Nat.digits_lt_base (by norm_num) (by simpa using hx)
    have hd2 : ∀ x ∈ (Nat.digits 10 n).reverse, x < 10 := by
      intro x hx
      exact Nat.digits_lt_base (by norm_num) (by simpa using hx)
    have h2 := map_digitChar_inj _ _ hd1 hd2 h
    have h3 := congrArg List.reverse h2
    simpa using h3

theorem seqName_inj {name : Str} {a b : Nat} (h : seqName name a = seqName name b) : a = b := by
  unfold seqName at h
  have h2 := List.append_cancel_left h
  injection h2 with _ h3
  exact natStr_inj h3

theorem seqName_ne_base (name : Str) (n : Nat) : seqName name n ≠ name := by
  intro h
  have := congrArg List.length h
  simp [seqName] at this

/-! ### The backup timestamp format

`backupTimeFormat = "2006-01-02T15-04-05.000000000"`.  A wall-clock
instant (already in UTC; the Go code converts with `.UTC()` before
formatting) is a record of calendar fields.  `fmtTime` models
`t.Format(backupTimeFormat)` and `parseTs` models
`time.Parse(backupTimeFormat, s)`: fixed-width zero-padded fields with
Go's range validation (month 1-12, day 1-days-in-month, hour < 24,
minute and second < 60), rejecting trailing text. -/

/-- A UTC wall-clock instant at nanosecond precision. -/
structure DateTime where
  year : Nat
  month : Nat
  day : Nat
  hour : Nat
  minute : Nat
  second : Nat
  nanosec : Nat
deriving DecidableEq

/-- Gregorian leap-year rule (as in Go's `time` package). -/
def isLeap (y : Nat) : Bool := y % 4 == 0 && (y % 100 != 0 || y % 400 == 0)

/-- Days in a month (as in Go's `time` package `daysIn`). -/
def daysIn (y m : Nat) : Nat :=
  if m = 2 then (if isLeap y then 29 else 28)
  else if m = 4 ∨ m = 6 ∨ m = 9 ∨ m = 11 then 30 else 31

/-- The calendar fields that Go's `time.Parse` accepts for this format,
together with a four-digit year as produced by the `2006` verb. -/
def DateTime.valid (t : DateTime) : Prop :=
  1 ≤ t.month ∧ t.month ≤ 12 ∧ 1 ≤ t.day ∧ t.day ≤ daysIn t.year t.month ∧
  t.hour ≤ 23 ∧ t.minute ≤ 59 ∧ t.second ≤ 59 ∧ t.nanosec < 1000000000 ∧ t.year ≤ 9999

instance (t : DateTime) : Decidable t.valid := by
  unfold DateTime.valid
  infer_instance

/-- Zero-padded fixed-width decimal rendering, most significant digit
first; models Go's fixed-width format verbs (`2006`, `01`, ..., and the
nine-digit fractional second `000000000`). -/
def padNum : Nat → Nat → Str
  | 0, _ => []
  | w + 1, n => digitChar (n / 10 ^ w) :: padNum w (n % 10 ^ w)

/-- Read exactly `w` decimal digits, accumulating their value; models the
fixed-width numeric field scanner of `time.Parse`. -/
def readNum : Nat → Nat → Str → Option (Nat × Str)
  | 0, acc, s => some (acc, s)
  | _ + 1, _, [] => none
  | w + 1, acc, c :: s =>
    if '0' ≤ c ∧ c ≤ '9' then readNum w (acc * 10 + (c.toNat - 48)) s else none

/-- Expect a literal separator character. -/
def expectCh (c : Char) : Str → Option Str
  | [] => none
  | a :: r => if a = c then some r else none

/-- Model of `t.Format(backupTimeFormat)`. -/
def fmtTime (t : DateTime) : Str :=
  padNum 4 t.year ++ '-' :: padNum 2 t.month ++ '-' :: padNum 2 t.day ++
  'T' :: padNum 2 t.hour ++ '-' :: padNum 2 t.minute ++ '-' :: padNum 2 t.second ++
  '.' :: padNum 9 t.nanosec

/-- Model of `time.Parse(backupTimeFormat, s)`: fixed-width fields with
separators, range validation, and no trailing text. -/
def parseTs (s : Str) : Option DateTime :=
  match readNum 4 0 s with
  | none => none
  | some (y, s) =>
  match expectCh '-' s with
  | none => none
  | some s =>
  match readNum 2 0 s with
  | none => none
  | some (mo, s) =>
  match expectCh '-' s with
  | none => none
  | some s =>
  match readNum 2 0 s with
  | none => none
  | some (d, s) =>
  match expectCh 'T' s with
  | none => none
  | some s =>
  match readNum 2 0 s with
  | none => none
  | some (h, s) =>
  match expectCh '-' s with
  | none => none
  | some s =>
  match readNum 2 0 s with
  | none => none
  | some (mi, s) =>
  match expectCh '-' s with
  | none => none
  | some s =>
  match readNum 2 0 s with
  | none => none
  | some (sec, s) =>
  match expectCh '.' s with
  | none => none
  | some s =>
  match readNum 9 0 s with
  | none => none
  | some (ns, s) =>
  if s = [] ∧ 1 ≤ mo ∧ mo ≤ 12 ∧ 1 ≤ d ∧ d ≤ daysIn y mo ∧ h ≤ 23 ∧ mi ≤ 59 ∧ sec ≤ 59 then
    some ⟨y, mo, d, h, mi, sec, ns⟩
  else none

theorem digitChar_ge {d : Nat} (hd : d < 10) : '0' ≤ digitChar d := by
  interval_cases d <;> decide

theorem digitChar_le {d : Nat} (hd : d < 10) : digitChar d ≤ '9' := by
  interval_cases d <;> decide

theorem readNum_padNum (w : Nat) : ∀ (acc n : Nat) (r : Str), n < 10 ^ w →
    readNum w acc (padNum w n ++ r) = some (acc * 10 ^ w + n, r) := by
  induction w with
  | zero =>
    intro acc n r hn
    interval_cases n
    simp [padNum, readNum]
  | succ w ih =>
    intro acc n r hn
    have hdlt : n / 10 ^ w < 10 := Nat.div_lt_of_lt_mul (by rw [← pow_succ]; exact hn)
    have hmlt : n % 10 ^ w < 10 ^ w := Nat.mod_lt _ (by positivity)
    have hstep : readNum (w + 1) acc (padNum (w + 1) n ++ r)
        = readNum w (acc * 10 + n / 10 ^ w) (padNum w (n % 10 ^ w) ++ r) := by
      rw [padNum]
      show readNum (w + 1) acc (digitChar (n / 10 ^ w) :: (padNum w (n % 10 ^ w) ++ r)) = _
      simp only [readNum, digitChar_ge hdlt, digitChar_le hdlt, and_self, if_true,
        toNat_digitChar hdlt, Nat.add_sub_cancel_left]
    rw [hstep, ih _ _ _ hmlt]
    congr 2
    calc (acc * 10 + n / 10 ^ w) * 10 ^ w + n % 10 ^ w
        = acc * (10 ^ w * 10) + (10 ^ w * (n / 10 ^ w) + n % 10 ^ w) := by ring
      _ = acc * 10 ^ (w + 1) + n := by rw [Nat.div_add_mod, pow_succ]

theorem parseTs_fmtTime (t : DateTime) (h : t.valid) : parseTs (fmtTime t) = some t := by
  obtain ⟨h1, h2, h3, h4, h5, h6, h7, h8, h9⟩ := h
  have hy : t.year < 10 ^ 4 := by omega
  have hmo : t.month < 10 ^ 2 := by omega
  have hd : t.day < 10 ^ 2 := by
    have : daysIn t.year t.month ≤ 31 := by
      unfold daysIn
      split <;> split <;> omega
    omega
  have hh : t.hour < 10 ^ 2 := by omega
  have hmi : t.minute < 10 ^ 2 := by omega
  have hs : t.second < 10 ^ 2 := by omega
  have hns : t.nanosec < 10 ^ 9 := by norm_num at h8 ⊢; omega
  unfold fmtTime parseTs
  simp only [List.cons_append, List.append_assoc]
  rw [readNum_padNum 4 0 _ _ hy]
  simp only [expectCh, reduceIte]
  rw [readNum_padNum 2 0 _ _ hmo]
  simp only [expectCh, reduceIte]
  rw [readNum_padNum 2 0 _ _ hd]
  simp only [expectCh, reduceIte]
  rw [readNum_padNum 2 0 _ _ hh]
  simp only [expectCh, reduceIte]
  rw [readNum_padNum 2 0 _ _ hmi]
  simp only [expectCh, reduceIte]
  rw [readNum_padNum 2 0 _ _ hs]
  simp only [expectCh, reduceIte]
  rw [show padNum 9 t.nanosec = padNum 9 t.nanosec ++ [] from (List.append_nil _).symm]
  rw [readNum_padNum 9 0 _ _ hns]
  simp [h1, h2, h3, h4, h5, h6, h7]

/-! ### Path manipulation

Models of the `path/filepath` functions the source uses on slash paths:
`Base`, `Dir`, `Ext`, and `Join` (modelled as `dir ++ "/" ++ name`,
which agrees with `filepath.Join` on already-clean directories). -/

/-- Model of `filepath.Base` for a nonempty clean path: the part after
the last slash. -/
def baseOf (p : Str) : Str := (List.takeWhile (fun c => decide (c ≠ '/')) p.reverse).reverse

/-- Model of `filepath.Dir` for a nonempty clean path: the part before
the last slash, `"."` when there is no slash, `"/"` for a file directly
under the root. -/
def dirOf (p : Str) : Str :=
  match List.dropWhile (fun c => decide (c ≠ '/')) p.reverse with
  | [] => ['.']
  | _ :: rest => if rest = [] then ['/'] else rest.reverse

/-- Model of `filepath.Ext` applied to a base name: the suffix starting
at the final dot, empty if there is none. -/
def extOf (b : Str) : Str :=
  let r := List.takeWhile (fun c => decide (c ≠ '.')) b.reverse
  if r.length = b.length then [] else '.' :: r.reverse

/-- Model of `strings.HasPrefix`. -/
def begins (pre s : Str) : Bool := decide (List.take pre.length s = pre)

/-- Model of `strings.HasSuffix`. -/
def finishes (sfx s : Str) : Bool := decide (List.drop (s.length - sfx.length) s = sfx)

/-- Model of `Logger.timeFromName`: strip the prefix and the extension
from a file name, returning the middle token, or `""` when the name
does not match. -/
def timeFromName (fname pre ext : Str) : Str :=
  if begins pre fname then
    let r := fname.drop pre.length
    if finishes ext r then r.take (r.length - ext.length) else []
  else []

/-- Model of `Logger.prefixAndExt`: the base name split at its last
extension boundary, with `-` appended to the stem. -/
def preAndExt (filename : Str) : Str × Str :=
  let base := baseOf filename
  let ext := extOf base
  (base.take (base.length - ext.length) ++ ['-'], ext)

theorem begins_append (pre r : Str) : begins pre (pre ++ r) = true := by
  simp [begins, List.take_left]

theorem timeFromName_extract (pre tok ext : Str) :
    timeFromName (pre ++ (tok ++ ext)) pre ext = tok := by
  unfold timeFromName
  rw [if_pos (by rw [begins_append])]
  rw [List.drop_left]
  have hfin : finishes ext (tok ++ ext) = true := by
    simp only [finishes, List.length_append, Nat.add_sub_cancel, decide_eq_true_eq]
    exact List.drop_left tok ext
  rw [if_pos (by rw [hfin])]
  simp [List.take_left]

theorem slash_not_mem_baseOf (p : Str) : '/' ∉ baseOf p := by
  intro h
  rw [baseOf, List.mem_reverse] at h
  have := List.mem_takeWhile_imp h
  simp at this

theorem baseOf_join (d b : Str) (hb : '/' ∉ b) : baseOf (d ++ '/' :: b) = b := by
  unfold baseOf
  rw [List.reverse_append, List.reverse_cons, List.append_assoc]
  have hself : List.takeWhile (fun c => decide (c ≠ '/')) b.reverse = b.reverse := by
    rw [List.takeWhile_eq_self_iff]
    intro a ha
    simp only [decide_eq_true_eq, ne_eq]
    intro hc
    subst hc
    exact hb ((List.mem_reverse).mp ha)
  rw [List.takeWhile_append]
  rw [hself]
  simp

/-! ### Retention cleanup (`oldLogFiles`, `cleanup`)

`oldLogFiles` reads the directory of the active file and keeps the
regular files whose names carry a parsable timestamp between the
logger's prefix and extension, sorted newest first (`byFormatTime`
sorts by `timestamp.After`).  `cleanup` keeps the first `MaxBackups`
of them and hands the rest to the asynchronous `deleteAll`. -/

/-- Mixed-radix encoding of the calendar fields; on valid instants it
is strictly monotone in the instant, so it models the ordering that
`time.Time.After` induces on parsed UTC timestamps. -/
def DateTime.key (t : DateTime) : Nat :=
  ((((((t.year * 13 + t.month) * 32 + t.day) * 24 + t.hour) * 60 + t.minute) * 60 + t.second)
    * 1000000000) + t.nanosec

/-- One entry of `ioutil.ReadDir`: a name and whether it is a directory. -/
structure DirEntry where
  name : Str
  isDir : Bool
deriving DecidableEq

/-- The model of `logInfo`: the parsed timestamp and the file name. -/
abbrev LogInfo := DateTime × Str

/-- The filtering part of `oldLogFiles`: skip directories, extract the
token with `timeFromName`, skip empty tokens, keep names whose token
parses under the backup time format. -/
def olfMatches (pre ext : Str) (entries : List DirEntry) : List LogInfo :=
  entries.filterMap (fun e =>
    if e.isDir then none
    else
      let tok := timeFromName e.name pre ext
      if tok = [] then none
      else match parseTs tok with
        | some t => some (t, e.name)
        | none => none)

/-- Model of `byFormatTime.Less i j = b[i].timestamp.After(b[j].timestamp)`:
newer timestamps sort first. -/
def tsGE (a b : LogInfo) : Prop := b.1.key ≤ a.1.key

instance : DecidableRel tsGE := fun a b => by unfold tsGE; infer_instance

instance : IsTotal LogInfo tsGE := ⟨fun a b => le_total b.1.key a.1.key⟩

instance : IsTrans LogInfo tsGE := ⟨fun a b c hab hbc => le_trans hbc hab⟩

/-- Model of `oldLogFiles` on a directory listing: matches sorted by
descending embedded timestamp. -/
def oldLogFiles (pre ext : Str) (entries : List DirEntry) : List LogInfo :=
  List.insertionSort tsGE (olfMatches pre ext entries)

/-- Model of the pure part of `cleanup`: the entries scheduled for
deletion.  With `MaxBackups == 0` nothing is deleted; otherwise
everything beyond the first `MaxBackups` sorted entries is scheduled. -/
def cleanupDeletes (maxBackups : Nat) (pre ext : Str) (entries : List DirEntry) : List LogInfo :=
  if maxBackups = 0 then []
  else
    let files := oldLogFiles pre ext entries
    if maxBackups < files.length then files.drop maxBackups else []

/-- The entries `cleanup` retains (the complement of `cleanupDeletes`
within the sorted matches). -/
def cleanupRetained (maxBackups : Nat) (pre ext : Str) (entries : List DirEntry) :
    List LogInfo :=
  if maxBackups = 0 then oldLogFiles pre ext entries
  else
    let files := oldLogFiles pre ext entries
    if maxBackups < files.length then files.take maxBackups else files

/-! ### The filesystem and logger state model

The filesystem is a finite map from paths to contents; only regular
files appear in it (`ioutil.ReadDir` listings with directories are fed
to the cleanup model separately).  A `Cfg` holds the public `Logger`
configuration together with the mocked `currentTime` instant; a
`LogState` holds the mutable state (`lines`, whether `file` is open).
An open handle always refers to the active path: `moveCreate` reopens
the active path and `copyTruncate` keeps writing the same file, so
appends always land at `filename`. -/

/-- A filesystem: a finite map from paths to file contents. -/
abbrev FSys := AList Str Str

/-- Whether a path exists, modelling `fileExists` (an `os_Stat` probe). -/
def hasFile (fs : FSys) (p : Str) : Bool := (AList.look fs p).isSome

/-- The `Logger` configuration fields the core uses, plus the mocked
`currentTime` value.  The empty-`Filename` default is not modelled: the
claims all concern explicitly configured paths. -/
structure Cfg where
  filename : Str
  maxLines : Nat
  maxBackups : Nat
  copyTruncate : Bool
  sequential : Bool
  now : DateTime

/-- `defaultMaxLines = 10`. -/
def defaultMaxLines : Nat := 10

/-- Model of `Logger.max()`. -/
def Cfg.maxL (c : Cfg) : Nat := if c.maxLines = 0 then defaultMaxLines else c.maxLines

/-- Model of `Logger.timestampedBackupName`: insert the formatted UTC
instant between the stem and the extension of the active file name. -/
def tsBackupName (c : Cfg) : Str :=
  let name := c.filename
  let base := baseOf name
  let ext := extOf base
  let stem := base.take (base.length - ext.length)
  dirOf name ++ '/' :: (stem ++ '-' :: (fmtTime c.now ++ ext))

/-- The mutable `Logger` state: the filesystem, the line counter, and
whether a file handle is open. -/
structure LogState where
  fs : FSys
  lines : Nat
  fileOpen : Bool

/-- Model of `copyTruncate(from, to)` on the success path: create (or
open) the backup, stream-copy the active content into it from offset
zero, truncate the active file in place.  The active path keeps its
entry (the same logical file); the handle bookkeeping with offsets is
modelled separately for claim C6. -/
def copyTruncFS (src dst : Str) (fs : FSys) : FSys :=
  match AList.look fs src with
  | none => fs
  | some c =>
    let old := (AList.look fs dst).getD []
    AList.put (AList.put fs dst (c ++ old.drop c.length)) src []

/-- Model of `moveCreate(from, to)` on the success path: rename the
active file to the backup path (overwriting any file there, like
`os.Rename`), then create a fresh empty file at the active path.  The
rename-failure path of the source is modelled separately for claim
C4. -/
def moveCreateFS (src dst : Str) (fs : FSys) : FSys :=
  match AList.look fs src with
  | none => fs
  | some c => AList.put (AList.put (AList.del fs src) dst c) src []

/-- Model of `doMove`. -/
def doMoveFS (src dst : Str) (copyTrunc : Bool) (fs : FSys) : FSys :=
  if copyTrunc then copyTruncFS src dst fs else moveCreateFS src dst fs

/-- Model of `move(from, to)`: a plain `os.Rename` of an existing
file, overwriting the destination. -/
def renameFS (src dst : Str) (fs : FSys) : FSys :=
  match AList.look fs src with
  | none => fs
  | some c => AList.put (AList.del fs src) dst c

/-- Model of `cascade(name, fromN)` (arguments: `fromN`, fuel, state).
The Go recursion terminates because the directory is finite; the
explicit fuel makes that termination argument explicit and is chosen
large enough at every call site of the theorems below. -/
def cascadeFS (name : Str) : Nat → Nat → FSys → FSys
  | _, 0, fs => fs
  | fromN, fuel + 1, fs =>
    let src := seqName name fromN
    let dst := seqName name (fromN + 1)
    if hasFile fs src then
      let fs1 := if hasFile fs dst then cascadeFS name (fromN + 1) fuel fs else fs
      renameFS src dst fs1
    else fs

/-- Model of `backupSequential`: drop the backup at index `MaxBackups`
if the cap is active and it exists, cascade every index up by one, then
move the active file to index 1. -/
def backupSeqFS (c : Cfg) (fuel : Nat) (fs : FSys) : FSys :=
  let name := c.filename
  let mb := seqName name c.maxBackups
  let fs1 := if c.maxBackups = 0 then fs
             else if hasFile fs mb then AList.del fs mb else fs
  let fs2 := cascadeFS name 1 fuel fs1
  doMoveFS name (seqName name 1) c.copyTruncate fs2

/-- Model of `Logger.backup`: sequential or timestamped naming. -/
def backupFS (c : Cfg) (fuel : Nat) (fs : FSys) : FSys :=
  if c.sequential then backupSeqFS c fuel fs
  else doMoveFS c.filename (tsBackupName c) c.copyTruncate fs

/-- The `ReadDir` listing derived from the filesystem for a directory:
base names of the regular files under it (the model filesystem holds
only regular files). -/
def dirEntriesOf (fs : FSys) (dir : Str) : List DirEntry :=
  (AList.keys fs).filterMap (fun p => if dirOf p = dir then some ⟨baseOf p, false⟩ else none)

/-- Model of `Logger.cleanup` on the filesystem: the full paths handed
to the asynchronous `deleteAll` (deletion itself runs on a separate
goroutine and is not applied to the synchronous state). -/
def cleanupFS (c : Cfg) (fs : FSys) : List Str :=
  let pe := preAndExt c.filename
  let dels := cleanupDeletes c.maxBackups pe.1 pe.2 (dirEntriesOf fs (dirOf c.filename))
  dels.map (fun e => dirOf c.filename ++ '/' :: e.2)

/-- Model of `Logger.initializeFile`: create-or-truncate the active
file and reset the counter.  `createOk` is the oracle for the
`os.OpenFile` creation succeeding (`os.MkdirAll` is modelled as
succeeding); on failure the error is returned (`none`). -/
def initializeFileFS (c : Cfg) (createOk : Bool) (st : LogState) : Option LogState :=
  if createOk then some { fs := AList.put st.fs c.filename [], lines := 0, fileOpen := true }
  else none

/-- Model of `Logger.rotate`: close, then back up the active file if it
exists on disk or initialize a fresh one, then (timestamped scheme
only) run cleanup.  Returns the new state and the paths scheduled for
asynchronous deletion. -/
def rotateFS (c : Cfg) (fuel : Nat) (createOk : Bool) (st : LogState) :
    Option (LogState × List Str) :=
  let st1 : LogState := { st with fileOpen := false }
  let st2? : Option LogState :=
    if hasFile st1.fs c.filename then
      some { fs := backupFS c fuel st1.fs, lines := 0, fileOpen := true }
    else initializeFileFS c createOk st1
  match st2? with
  | none => none
  | some st2 =>
    if c.sequential then some (st2, [])
    else some (st2, cleanupFS c st2.fs)

/-- Model of `Logger.openExistingOrNew`.  Note that the reuse decision
compares the byte size of the existing file (`info.Size()`), not its
line count; the line count is only computed (by `linesInFile`) once the
file has been reopened.  The unreadable-file and unparsable-line-count
fallbacks are error paths of reads, which the deterministic filesystem
model does not produce. -/
def openEONFS (c : Cfg) (fuel : Nat) (createOk : Bool) (st : LogState) :
    Option (LogState × List Str) :=
  match AList.look st.fs c.filename with
  | none => (initializeFileFS c createOk st).map (fun s => (s, []))
  | some content =>
    if content.length + 1 > c.maxL then rotateFS c fuel createOk st
    else some ({ st with fileOpen := true, lines := linesInFile content }, [])

/-- The observable outcome of one `Write` call. -/
structure WOut where
  st : LogState
  n : Nat
  werr : Bool
  pend : List Str

/-- Model of `Logger.Write`.  The underlying `l.file.Write(p)` result
is the oracle pair `(uk, uerr)`: `uk` bytes of `p` are appended and
returned, `uerr` says whether that write reported an error.  The line
counter is incremented by one regardless, and `(uk, uerr)` is returned
to the caller. -/
def writeFS (c : Cfg) (fuel : Nat) (createOk : Bool) (st : LogState) (p : Str)
    (uk : Nat) (uerr : Bool) : Option WOut :=
  match (if st.fileOpen then some (st, ([] : List Str)) else openEONFS c fuel createOk st) with
  | none => none
  | some (st1, pend1) =>
    match (if st1.lines + 1 > c.maxL then rotateFS c fuel createOk st1
           else some (st1, ([] : List Str))) with
    | none => none
    | some (st2, pend2) =>
      let newContent := (AList.look st2.fs c.filename).getD [] ++ p.take uk
      some { st := { fs := AList.put st2.fs c.filename newContent, lines := st2.lines + 1,
                     fileOpen := st2.fileOpen },
             n := uk, werr := uerr, pend := pend1 ++ pend2 }

/-! ### The `moveCreate` rename loop (claim C4)

The source reads:

    tries := 0
    var info os.FileInfo
    var err error
    for {
        info, err = move(from, to)
        if err != nil {
            tries++
            if tries > 20 {
                return nil, err
            }
            time.Sleep(10 * time.Millisecond)
        }
        break
    }

The `break` at the end of the body is unconditional, so the body runs
exactly once; after a failed rename the code falls through to
`os.OpenFile(from, O_CREATE|O_WRONLY|O_TRUNC, ...)`, truncating the
content that was never moved.  `renameOk` is the oracle for the
`os.Rename` outcome; the returned number counts rename attempts made,
and `none` models an error being returned to the caller. -/
def moveCreateRetry (renameOk : Bool) (src dst : Str) (fs : FSys) : Option (FSys × Nat) :=
  match AList.look fs src with
  | none => none
  | some cont =>
    if renameOk then
      some (AList.put (AList.put (AList.del fs src) dst cont) src [], 1)
    else
      let tries := 0 + 1
      if tries > 20 then none
      else some (AList.put fs src [], tries)

/-! ### Inode-level model of `copyTruncate` (claim C6)

`copyTruncate` is about file identity (the tailing use case), so this
model tracks inodes and handle offsets: paths map to inode numbers,
inodes hold data and permission bits, and a handle is an inode plus a
read/write offset. -/

/-- An inode: contents plus permission bits. -/
structure Ino where
  data : Str
  mode : Nat
deriving DecidableEq

/-- An inode-level filesystem. -/
structure IFS where
  paths : AList Str Nat
  store : AList Nat Ino
  next : Nat

/-- An open file handle: the inode it refers to and its offset. -/
structure Handle where
  ino : Nat
  off : Nat
deriving DecidableEq

/-- POSIX positional write: overwrite `q` at offset `off`, zero-padding
if the file is shorter than `off`, keeping any tail past the write. -/
def writeAt (d : Str) (off : Nat) (q : Str) : Str :=
  d.take off ++ List.replicate (off - d.length) (Char.ofNat 0) ++ q ++ d.drop (off + q.length)

/-- Model of `copyTruncate(from, to)` at the inode level: stat the
source, open it read/write (same inode, offset 0), create or open the
backup with the source's mode, copy the whole content (advancing the
source handle to end of file), truncate the source in place, and seek
the handle back to the start.  The `chown` call is a no-op in this
ownership-free model. -/
def copyTruncateI (src dst : Str) (st : IFS) : Option (IFS × Handle) :=
  match AList.look st.paths src with
  | none => none
  | some i =>
  match AList.look st.store i with
  | none => none
  | some f =>
    let rw : Handle := ⟨i, 0⟩
    let stj : IFS × Nat :=
      match AList.look st.paths dst with
      | some j => (st, j)
      | none => (⟨AList.put st.paths dst st.next, AList.put st.store st.next ⟨[], f.mode⟩,
                  st.next + 1⟩, st.next)
    let st1 := stj.1
    let j := stj.2
    let bk := (AList.look st1.store j).getD ⟨[], f.mode⟩
    let copied := f.data.drop rw.off
    let st2 : IFS := { st1 with store := AList.put st1.store j ⟨writeAt bk.data 0 copied, bk.mode⟩ }
    let rw1 : Handle := ⟨i, rw.off + copied.length⟩
    let st3 : IFS := { st2 with store := AList.put st2.store i ⟨[], f.mode⟩ }
    let rw2 : Handle := ⟨rw1.ino, 0⟩
    some (st3, rw2)

/-- A write through an open handle: data lands in the handle's inode at
the handle's offset, and the offset advances. -/
def hWrite (st : IFS) (h : Handle) (q : Str) : IFS × Handle :=
  match AList.look st.store h.ino with
  | none => (st, h)
  | some f =>
    ({ st with store := AList.put st.store h.ino ⟨writeAt f.data h.off q, f.mode⟩ },
     ⟨h.ino, h.off + q.length⟩)

/-! ### Facts about line counting -/

theorem linesCount_replicate (n : Nat) (b : Bool) : linesCount b (List.replicate n '\n') = 0 := by
  induction n generalizing b with
  | zero => rfl
  | succ n ih => simp [List.replicate, linesCount, ih]

theorem linesCount_append_nl (ys : Str) : ∀ (xs : Str) (b : Bool),
    linesCount b (xs ++ '\n' :: ys) = linesCount b (xs ++ ['\n']) + linesCount false ys := by
  intro xs
  induction xs with
  | nil => intro b; simp [linesCount]
  | cons c r ih =>
    intro b
    by_cases hc : c = '\n' <;> simp [linesCount, hc, ih] <;> omega

theorem linesCount_snoc_nl (xs : Str) : ∀ b, linesCount b (xs ++ ['\n']) = linesCount b xs := by
  induction xs with
  | nil => intro b; simp [linesCount]
  | cons c r ih => intro b; by_cases hc : c = '\n' <;> simp [linesCount, hc, ih]

theorem linesCount_true_no_nl (t : Str) (h : '\n' ∉ t) : linesCount true t = 0 := by
  induction t with
  | nil => rfl
  | cons c r ih =>
    have hc : c ≠ '\n' := by intro e; exact h (by simp [e])
    simp [linesCount, hc, ih (fun m => h (List.mem_cons_of_mem _ m))]

theorem linesCount_false_single (t : Str) (h : '\n' ∉ t) (hne : t ≠ []) :
    linesCount false t = 1 := by
  cases t with
  | nil => simp at hne
  | cons c r =>
    have hc : c ≠ '\n' := by intro e; exact h (by simp [e])
    simp [linesCount, hc, linesCount_true_no_nl r (fun m => h (List.mem_cons_of_mem _ m))]

/-- C10: the inherited line count of a pre-existing file counts only
nonempty delimiter-separated segments: a file of `n` newlines has
inherited count 0, a leading or a trailing newline contributes nothing,
and appending one nonempty newline-free final segment after a delimiter
adds exactly one line (so a final segment without a trailing delimiter
counts as one line). -/
theorem C10_linesInFile_segments (s t : Str) (n : Nat) (h1 : '\n' ∉ t) (h2 : t ≠ []) :
    linesInFile (List.replicate n '\n') = 0 ∧
    linesInFile ('\n' :: s) = linesInFile s ∧
    linesInFile (s ++ ['\n']) = linesInFile s ∧
    linesInFile (s ++ '\n' :: t) = linesInFile (s ++ ['\n']) + 1 := by
  simp only [linesInFile_eq]
  refine ⟨linesCount_replicate n false, by simp [linesCount], linesCount_snoc_nl s false, ?_⟩
  rw [linesCount_append_nl t s false, linesCount_false_single t h1 h2]

/-- Witness for C10 at concrete inputs. -/
theorem C10_witness :
    ('\n' ∉ (['x', 'y'] : Str)) ∧ (['x', 'y'] : Str) ≠ [] ∧
    (linesInFile (List.replicate 3 '\n') = 0 ∧
     linesInFile ('\n' :: (['a', '\n'] : Str)) = linesInFile (['a', '\n'] : Str) ∧
     linesInFile ((['a', '\n'] : Str) ++ ['\n']) = linesInFile (['a', '\n'] : Str) ∧
     linesInFile ((['a', '\n'] : Str) ++ '\n' :: ['x', 'y']) =
       linesInFile ((['a', '\n'] : Str) ++ ['\n']) + 1) :=
  ⟨by decide, by decide, C10_linesInFile_segments ['a', '\n'] ['x', 'y'] 3 (by decide) (by decide)⟩

/-! ### Rotation and write theorems -/

theorem rotateFS_of_hasFile (c : Cfg) (fuel : Nat) (createOk : Bool) (st : LogState)
    (cont : Str) (hEx : AList.look st.fs c.filename = some cont) :
    ∃ pend, rotateFS c fuel createOk st =
      some ({ fs := backupFS c fuel st.fs, lines := 0, fileOpen := true }, pend) := by
  unfold rotateFS
  simp only [hasFile, hEx, Option.isSome_some, if_true]
  by_cases hs : c.sequential <;> simp [hs]

/-- C9: when the underlying `file.Write` inside `Write` returns an
error, the line counter is still incremented by one, exactly as for a
successful write of the same call (so a failed write consumes a line
toward the rotation threshold), and `Write` returns the underlying
byte count together with the error. -/
theorem C9_failed_write_still_counts (c : Cfg) (fuel : Nat) (createOk : Bool) (st : LogState)
    (p : Str) (uk : Nat) (cont : Str)
    (hOpen : st.fileOpen = true) (hEx : AList.look st.fs c.filename = some cont) :
    ∃ stE pendE stO pendO,
      writeFS c fuel createOk st p uk true = some ⟨stE, uk, true, pendE⟩ ∧
      writeFS c fuel createOk st p p.length false = some ⟨stO, p.length, false, pendO⟩ ∧
      stE.lines = stO.lines ∧ pendE = pendO ∧
      stE.lines = (if st.lines + 1 > c.maxL then 1 else st.lines + 1) := by
  unfold writeFS
  rw [hOpen]
  by_cases hthr : st.lines + 1 > c.maxL
  · obtain ⟨pend, hrot⟩ := rotateFS_of_hasFile c fuel createOk st cont hEx
    simp only [if_true, hthr, if_pos hthr, hrot]
    exact ⟨_, _, _, _, rfl, rfl, rfl, rfl, by simp [hthr]⟩
  · simp only [if_true, hthr, if_neg hthr]
    exact ⟨_, _, _, _, rfl, rfl, rfl, rfl, by simp [hthr]⟩

/-- C8: calling `Rotate` when the active file does not exist creates
the active file with a zero line counter, produces no backup (the only
change to the filesystem is the new empty active file), and returns no
error when file creation succeeds. -/
theorem C8_rotate_without_active_file (c : Cfg) (fuel : Nat) (st : LogState)
    (h : AList.look st.fs c.filename = none) :
    ∃ pend, rotateFS c fuel true st =
      some ({ fs := AList.put st.fs c.filename [], lines := 0, fileOpen := true }, pend) ∧
      AList.look (AList.put st.fs c.filename []) c.filename = some [] ∧
      (∀ q, q ≠ c.filename → AList.look (AList.put st.fs c.filename []) q = AList.look st.fs q) := by
  unfold rotateFS initializeFileFS
  simp only [hasFile, h, Option.isSome_none, Bool.false_eq_true, if_false, if_true]
  by_cases hs : c.sequential
  · exact ⟨[], by simp [hs], by simp, fun q hq => AList.look_put_ne _ _ _ _ (Ne.symm hq)⟩
  · exact ⟨cleanupFS c (AList.put st.fs c.filename []), by simp [hs], by simp,
      fun q hq => AList.look_put_ne _ _ _ _ (Ne.symm hq)⟩

/-- A logger configuration used as a concrete test fixture. -/
def wCfg : Cfg := ⟨"d/foobar.log".toList, 1, 0, false, false, ⟨2020, 10, 20, 15, 4, 5, 123⟩⟩

/-- An open state over one active file used as a concrete test fixture. -/
def wSt : LogState := ⟨[("d/foobar.log".toList, "boo!\n".toList)], 1, true⟩

/-- Witness for C9 at a concrete open logger. -/
theorem C9_witness :
    wSt.fileOpen = true ∧ AList.look wSt.fs wCfg.filename = some "boo!\n".toList ∧
    (∃ stE pendE stO pendO,
      writeFS wCfg 1 true wSt "x\n".toList 1 true = some ⟨stE, 1, true, pendE⟩ ∧
      writeFS wCfg 1 true wSt "x\n".toList ("x\n".toList).length false
        = some ⟨stO, ("x\n".toList).length, false, pendO⟩ ∧
      stE.lines = stO.lines ∧ pendE = pendO ∧
      stE.lines = (if wSt.lines + 1 > wCfg.maxL then 1 else wSt.lines + 1)) :=
  ⟨rfl, by decide,
    C9_failed_write_still_counts wCfg 1 true wSt "x\n".toList 1 "boo!\n".toList rfl (by decide)⟩

/-- An unopened state over an empty filesystem used as a fixture. -/
def r8St : LogState := ⟨[], 0, false⟩

/-- Witness for C8 at a concrete logger with no active file on disk. -/
theorem C8_witness :
    AList.look r8St.fs wCfg.filename = none ∧
    (∃ pend, rotateFS wCfg 1 true r8St =
      some ({ fs := AList.put r8St.fs wCfg.filename [], lines := 0, fileOpen := true }, pend) ∧
      AList.look (AList.put r8St.fs wCfg.filename []) wCfg.filename = some [] ∧
      (∀ q, q ≠ wCfg.filename →
        AList.look (AList.put r8St.fs wCfg.filename []) q = AList.look r8St.fs q)) :=
  ⟨rfl, C8_rotate_without_active_file wCfg 1 r8St rfl⟩

/-- A one-file filesystem used as the moveCreate fixture. -/
def c4fs : FSys := [("d/a.log".toList, "secret\n".toList)]

/-- C4: the rename inside `moveCreate` is attempted exactly once (the
loop body ends in an unconditional `break`), its failure is never
surfaced as an error, and on a failing rename the function proceeds to
create a fresh truncated file at the active path: the old content is
lost and no backup exists. -/
theorem C4_moveCreate_rename_not_retried :
    (∀ (ok : Bool) (src dst : Str) (fs : FSys) (cont : Str),
        AList.look fs src = some cont →
        ∃ fs1, moveCreateRetry ok src dst fs = some (fs1, 1)) ∧
    moveCreateRetry false "d/a.log".toList "d/a.log.1".toList c4fs
      = some (AList.put c4fs "d/a.log".toList [], 1) ∧
    AList.look (AList.put c4fs "d/a.log".toList []) "d/a.log.1".toList = none ∧
    AList.look (AList.put c4fs "d/a.log".toList []) "d/a.log".toList = some [] := by
  refine ⟨?_, by decide, by decide, by decide⟩
  intro ok src dst fs cont h
  unfold moveCreateRetry
  rw [h]
  by_cases hok : ok <;> simp [hok]

/-- Witness for C4's quantified part at a concrete filesystem. -/
theorem C4_witness :
    AList.look c4fs "d/a.log".toList = some "secret\n".toList ∧
    (∃ fs1, moveCreateRetry false "d/a.log".toList "d/a.log.1".toList c4fs = some (fs1, 1)) :=
  ⟨by decide, C4_moveCreate_rename_not_retried.1 false "d/a.log".toList "d/a.log.1".toList c4fs
    "secret\n".toList (by decide)⟩

/-- The C2 fixture: a pre-existing active file of 12 bytes holding one
line, with `MaxLines = 5`. -/
def c2Cfg : Cfg := ⟨"d/a.log".toList, 5, 0, false, false, ⟨2020, 10, 20, 15, 4, 5, 123⟩⟩

/-- The C2 fixture state: the file exists on disk, no handle is open. -/
def c2St : LogState := ⟨[("d/a.log".toList, List.replicate 12 'a')], 0, false⟩

/-- C2 evaluation: `openExistingOrNew` decides reuse from the byte size
(`info.Size()+1 > max`), not from the scanned line count.  The fixture
file holds a single line (1 + 1 ≤ 5, so the line threshold would allow
reuse), yet because its byte size is 12 the code rotates: afterward the
active file is empty, the old content sits in a timestamped backup, and
the counter is 0. -/
theorem C2_reuse_decision_uses_byte_size :
    linesInFile (List.replicate 12 'a') + 1 ≤ c2Cfg.maxL ∧
    (List.replicate 12 'a').length + 1 > c2Cfg.maxL ∧
    (openEONFS c2Cfg 1 true c2St).map
        (fun r => (AList.look r.1.fs c2Cfg.filename, AList.look r.1.fs (tsBackupName c2Cfg),
                   r.1.lines))
      = some (some [], some (List.replicate 12 'a'), 0) := by
  refine ⟨by decide, by decide, by decide⟩

/-! ### The timestamped backup name round trip (claim C7) -/

theorem mem_padNum {w n : Nat} {ch : Char} (hn : n < 10 ^ w) (h : ch ∈ padNum w n) :
    ∃ d, d < 10 ∧ ch = digitChar d := by
  induction w generalizing n with
  | zero => simp [padNum] at h
  | succ w ih =>
    rw [padNum] at h
    rcases List.mem_cons.mp h with h | h
    · exact ⟨n / 10 ^ w, Nat.div_lt_of_lt_mul (by rw [← pow_succ]; exact hn), h⟩
    · exact ih (Nat.mod_lt _ (by positivity)) h

theorem digitChar_ne_slash {d : Nat} (hd : d < 10) : digitChar d ≠ '/' := by
  interval_cases d <;> decide

theorem slash_not_mem_fmtTime {t : DateTime} (hv : t.valid) : '/' ∉ fmtTime t := by
  obtain ⟨h1, h2, h3, h4, h5, h6, h7, h8, h9⟩ := hv
  have hy : t.year < 10 ^ 4 := by omega
  have hmo : t.month < 10 ^ 2 := by omega
  have hd : t.day < 10 ^ 2 := by
    have : daysIn t.year t.month ≤ 31 := by unfold daysIn; split <;> split <;> omega
    omega
  have hh : t.hour < 10 ^ 2 := by omega
  have hmi : t.minute < 10 ^ 2 := by omega
  have hs : t.second < 10 ^ 2 := by omega
  have hns : t.nanosec < 10 ^ 9 := by norm_num at h8 ⊢; omega
  have hdig : ∀ {w n : Nat}, n < 10 ^ w → '/' ∈ padNum w n → False := by
    intro w n hn h
    obtain ⟨d, hd10, hcd⟩ := mem_padNum hn h
    exact digitChar_ne_slash hd10 hcd.symm
  intro hmem
  unfold fmtTime at hmem
  simp only [List.mem_append, List.mem_cons] at hmem
  rcases hmem with (((((h | (h | h)) | (h | h)) | (h | h)) | (h | h)) | (h | h)) | (h | h)
  · exact hdig hy h
  · exact absurd h (by decide)
  · exact hdig hmo h
  · exact absurd h (by decide)
  · exact hdig hd h
  · exact absurd h (by decide)
  · exact hdig hh h
  · exact absurd h (by decide)
  · exact hdig hmi h
  · exact absurd h (by decide)
  · exact hdig hs h
  · exact absurd h (by decide)
  · exact hdig hns h

theorem mem_extOf {b : Str} {ch : Char} (h : ch ∈ extOf b) : ch = '.' ∨ ch ∈ b := by
  by_cases hlen : (List.takeWhile (fun c => decide (c ≠ '.')) b.reverse).length = b.length
  · simp only [extOf] at h
    rw [if_pos hlen] at h
    simp at h
  · simp only [extOf] at h
    rw [if_neg hlen] at h
    rcases List.mem_cons.mp h with h | h
    · exact Or.inl h
    · refine Or.inr ?_
      rw [List.mem_reverse] at h
      have := (List.takeWhile_prefix (l := b.reverse)
        (p := fun c => decide (c ≠ '.'))).subset h
      exact (List.mem_reverse).mp this

/-- C7: the timestamped backup name is `dir/stem-<timestamp>ext` built
from the active path `dir/stem ++ ext`, where the timestamp is the
(UTC) rotation instant rendered in the fixed backup time format; and
extracting the token back out of the generated base name with
`timeFromName` and parsing it with the backup time format recovers the
rotation instant exactly. -/
theorem C7_backupName_roundTrip (c : Cfg) (hv : c.now.valid) :
    tsBackupName c = dirOf c.filename ++ '/' ::
      ((preAndExt c.filename).1 ++ (fmtTime c.now ++ (preAndExt c.filename).2)) ∧
    timeFromName (baseOf (tsBackupName c)) (preAndExt c.filename).1 (preAndExt c.filename).2
      = fmtTime c.now ∧
    parseTs (fmtTime c.now) = some c.now := by
  have hform : tsBackupName c = dirOf c.filename ++ '/' ::
      ((preAndExt c.filename).1 ++ (fmtTime c.now ++ (preAndExt c.filename).2)) := by
    unfold tsBackupName preAndExt
    simp
  have hslash : '/' ∉ (preAndExt c.filename).1 ++ (fmtTime c.now ++ (preAndExt c.filename).2) := by
    intro hmem
    rcases List.mem_append.mp hmem with h | h
    · unfold preAndExt at h
      rcases List.mem_append.mp h with h | h
      · exact slash_not_mem_baseOf c.filename (List.take_subset _ _ h)
      · simp at h
    · rcases List.mem_append.mp h with h | h
      · exact slash_not_mem_fmtTime hv h
      · unfold preAndExt at h
        rcases mem_extOf h with h | h
        · simp at h
        · exact slash_not_mem_baseOf c.filename h
  refine ⟨hform, ?_, parseTs_fmtTime c.now hv⟩
  rw [hform, baseOf_join _ _ hslash]
  exact timeFromName_extract (preAndExt c.filename).1 (fmtTime c.now) (preAndExt c.filename).2

/-- The C7 fixture from the package documentation example. -/
def c7Cfg : Cfg := ⟨"/var/log/foo/server.log".toList, 10, 0, false, false,
  ⟨2016, 11, 4, 18, 30, 0, 0⟩⟩

/-- Witness for C7 at the documentation example path and instant. -/
theorem C7_witness :
    c7Cfg.now.valid ∧
    (tsBackupName c7Cfg = dirOf c7Cfg.filename ++ '/' ::
      ((preAndExt c7Cfg.filename).1 ++ (fmtTime c7Cfg.now ++ (preAndExt c7Cfg.filename).2)) ∧
    timeFromName (baseOf (tsBackupName c7Cfg)) (preAndExt c7Cfg.filename).1
      (preAndExt c7Cfg.filename).2 = fmtTime c7Cfg.now ∧
    parseTs (fmtTime c7Cfg.now) = some c7Cfg.now) :=
  ⟨by decide, C7_backupName_roundTrip c7Cfg (by decide)⟩

/-! ### Claim C5: cleanup retention -/

theorem olfMatches_mem (pre ext : Str) (entries : List DirEntry) (x : LogInfo) :
    x ∈ olfMatches pre ext entries ↔
      ∃ e ∈ entries, e.isDir = false ∧ e.name = x.2 ∧
        timeFromName e.name pre ext ≠ [] ∧
        parseTs (timeFromName e.name pre ext) = some x.1 := by
  unfold olfMatches
  rw [List.mem_filterMap]
  constructor
  · rintro ⟨e, he, hfe⟩
    by_cases hdir : e.isDir = true
    · simp [hdir] at hfe
    · rw [Bool.not_eq_true] at hdir
      simp only [hdir, Bool.false_eq_true, if_false] at hfe
      by_cases htok : timeFromName e.name pre ext = []
      · simp [htok] at hfe
      · simp only [htok, if_false] at hfe
        rcases hp : parseTs (timeFromName e.name pre ext) with _ | t
        · rw [hp] at hfe
          simp at hfe
        · rw [hp] at hfe
          simp only [Option.some.injEq] at hfe
          refine ⟨e, he, hdir, ?_, htok, ?_⟩
          · rw [← hfe]
          · rw [hp, ← hfe]
  · rintro ⟨e, he, hdir, hname, htok, hp⟩
    refine ⟨e, he, ?_⟩
    rw [hdir] at *
    simp only [Bool.false_eq_true, if_false, htok, hp]
    rw [hname]

/-- C5: with the timestamped scheme, a completed cleanup pass considers
exactly the non-directory entries whose names split as
`prefix ++ token ++ ext` with a token that parses under the backup time
format; with `MaxBackups = 0` nothing is scheduled for deletion;
otherwise the retained entries are the `min MaxBackups (matches)` with
the most recent parsed timestamps and everything else that matches is
scheduled for deletion; directories and non-matching names are never
scheduled. -/
theorem C5_cleanup_retention (M : Nat) (pre ext : Str) (entries : List DirEntry)
    (hnodup : (entries.map DirEntry.name).Nodup) :
    (M = 0 → cleanupDeletes M pre ext entries = []) ∧
    (∀ x : LogInfo, x ∈ olfMatches pre ext entries ↔
      ∃ e ∈ entries, e.isDir = false ∧ e.name = x.2 ∧
        timeFromName e.name pre ext ≠ [] ∧
        parseTs (timeFromName e.name pre ext) = some x.1) ∧
    (∀ x ∈ cleanupDeletes M pre ext entries, x ∈ olfMatches pre ext entries) ∧
    (∀ e ∈ entries, e.isDir = true → ∀ x ∈ cleanupDeletes M pre ext entries, x.2 ≠ e.name) ∧
    (List.Perm (cleanupRetained M pre ext entries ++ cleanupDeletes M pre ext entries)
      (olfMatches pre ext entries)) ∧
    (M ≠ 0 → (cleanupRetained M pre ext entries).length
      = min M (olfMatches pre ext entries).length) ∧
    (∀ x ∈ cleanupDeletes M pre ext entries, ∀ y ∈ cleanupRetained M pre ext entries,
      x.1.key ≤ y.1.key) := by
  have hsorted : List.Sorted tsGE (oldLogFiles pre ext entries) :=
    List.sorted_insertionSort tsGE (olfMatches pre ext entries)
  have hperm : List.Perm (oldLogFiles pre ext entries) (olfMatches pre ext entries) :=
    List.perm_insertionSort tsGE (olfMatches pre ext entries)
  have hlen : (oldLogFiles pre ext entries).length = (olfMatches pre ext entries).length :=
    hperm.length_eq
  have hdel : ∀ x ∈ cleanupDeletes M pre ext entries, x ∈ olfMatches pre ext entries := by
    intro x hx
    unfold cleanupDeletes at hx
    by_cases hM : M = 0
    · simp [hM] at hx
    · rw [if_neg hM] at hx
      by_cases hlt : M < (oldLogFiles pre ext entries).length
      · rw [if_pos hlt] at hx
        exact hperm.subset (List.drop_subset _ _ hx)
      · rw [if_neg hlt] at hx
        simp at hx
  refine ⟨fun hM => by simp [cleanupDeletes, hM], fun x => olfMatches_mem pre ext entries x,
    hdel, ?_, ?_, ?_, ?_⟩
  · -- directories are never scheduled for deletion
    intro e he hdir x hx heq
    obtain ⟨e', he', hdir', hname', _, _⟩ := (olfMatches_mem pre ext entries x).mp (hdel x hx)
    have : e' = e := List.inj_on_of_nodup_map hnodup he' he (by rw [hname', heq])
    rw [this, hdir] at hdir'
    exact Bool.true_eq_false.mp hdir'
  · -- retained ++ deleted is a permutation of the matches
    unfold cleanupRetained cleanupDeletes
    by_cases hM : M = 0
    · simpa [hM] using hperm
    · rw [if_neg hM, if_neg hM]
      by_cases hlt : M < (oldLogFiles pre ext entries).length
      · rw [if_pos hlt, if_pos hlt, List.take_append_drop]
        exact hperm
      · rw [if_neg hlt, if_neg hlt]
        simpa using hperm
  · -- the retained count is min MaxBackups (number of matches)
    intro hM
    unfold cleanupRetained
    rw [if_neg hM]
    by_cases hlt : M < (oldLogFiles pre ext entries).length
    · rw [if_pos hlt, List.length_take, hlen]
    · rw [if_neg hlt, hlen]
      omega
  · -- every deleted timestamp is no newer than every retained one
    intro x hx y hy
    unfold cleanupDeletes at hx
    unfold cleanupRetained at hy
    by_cases hM : M = 0
    · simp [hM] at hx
    · rw [if_neg hM] at hx hy
      by_cases hlt : M < (oldLogFiles pre ext entries).length
      · rw [if_pos hlt] at hx hy
        exact hsorted.rel_of_mem_take_of_mem_drop hy hx
      · rw [if_neg hlt] at hx
        simp at hx

/-- A directory listing fixture for C5: two real backups, the active
file, a foreign file, and a directory whose name matches the backup
pattern. -/
def c5Entries : List DirEntry :=
  [⟨"foobar-2020-10-20T15-04-05.000000123.log".toList, false⟩,
   ⟨"foobar-2020-10-20T15-04-06.000000123.log".toList, false⟩,
   ⟨"foobar.log".toList, false⟩,
   ⟨"junk.txt".toList, false⟩,
   ⟨"foobar-2020-10-20T15-04-07.000000123.log".toList, true⟩]

/-- The prefix of the C5 fixture logger. -/
def c5Pre : Str := (preAndExt "d/foobar.log".toList).1

/-- The extension of the C5 fixture logger. -/
def c5Ext : Str := (preAndExt "d/foobar.log".toList).2

/-- Witness for C5 at the fixture listing with `MaxBackups = 1`. -/
theorem C5_witness :
    (c5Entries.map DirEntry.name).Nodup ∧
    ((1 = 0 → cleanupDeletes 1 c5Pre c5Ext c5Entries = []) ∧
    (∀ x : LogInfo, x ∈ olfMatches c5Pre c5Ext c5Entries ↔
      ∃ e ∈ c5Entries, e.isDir = false ∧ e.name = x.2 ∧
        timeFromName e.name c5Pre c5Ext ≠ [] ∧
        parseTs (timeFromName e.name c5Pre c5Ext) = some x.1) ∧
    (∀ x ∈ cleanupDeletes 1 c5Pre c5Ext c5Entries, x ∈ olfMatches c5Pre c5Ext c5Entries) ∧
    (∀ e ∈ c5Entries, e.isDir = true →
      ∀ x ∈ cleanupDeletes 1 c5Pre c5Ext c5Entries, x.2 ≠ e.name) ∧
    (List.Perm (cleanupRetained 1 c5Pre c5Ext c5Entries ++ cleanupDeletes 1 c5Pre c5Ext c5Entries)
      (olfMatches c5Pre c5Ext c5Entries)) ∧
    ((1 : Nat) ≠ 0 → (cleanupRetained 1 c5Pre c5Ext c5Entries).length
      = min 1 (olfMatches c5Pre c5Ext c5Entries).length) ∧
    (∀ x ∈ cleanupDeletes 1 c5Pre c5Ext c5Entries,
      ∀ y ∈ cleanupRetained 1 c5Pre c5Ext c5Entries, x.1.key ≤ y.1.key)) :=
  ⟨by decide, C5_cleanup_retention 1 c5Pre c5Ext c5Entries (by decide)⟩

/-! ### Claim C6: copy-truncate keeps the logical file -/

theorem writeAt_nil_zero (q : Str) : writeAt [] 0 q = q := by
  simp [writeAt]

/-- C6: on a fresh backup path, `copyTruncate` produces a backup inode
holding the full pre-rotation content (with the original mode), leaves
the file at the original active path truncated to zero length with the
returned handle's write position at the start, never renames or
replaces the active path (it still maps to the same inode), and a
subsequent write through the returned handle lands in that same
logical file, visible at the active path. -/
theorem C6_copyTruncate_same_file (src dst : Str) (st : IFS) (i : Nat) (cont : Str) (m : Nat)
    (hpath : AList.look st.paths src = some i)
    (hino : AList.look st.store i = some ⟨cont, m⟩)
    (hdst : AList.look st.paths dst = none)
    (hfresh : AList.look st.store st.next = none) :
    ∃ st', copyTruncateI src dst st = some (st', ⟨i, 0⟩) ∧
      AList.look st'.paths src = some i ∧
      AList.look st'.store i = some ⟨[], m⟩ ∧
      AList.look st'.paths dst = some st.next ∧
      AList.look st'.store st.next = some ⟨cont, m⟩ ∧
      (∀ q, q ≠ dst → AList.look st'.paths q = AList.look st.paths q) ∧
      (∀ j, j ≠ i → j ≠ st.next → AList.look st'.store j = AList.look st.store j) ∧
      (∀ q : Str, AList.look ((hWrite st' ⟨i, 0⟩ q).1.store) i = some ⟨q, m⟩ ∧
                  AList.look ((hWrite st' ⟨i, 0⟩ q).1.paths) src = some i) := by
  have hsrcdst : src ≠ dst := fun h => by rw [h, hdst] at hpath; exact Option.noConfusion hpath
  have hinext : i ≠ st.next := fun h => by rw [h, hfresh] at hino; exact Option.noConfusion hino
  have hval : copyTruncateI src dst st = some
      (⟨AList.put st.paths dst st.next,
        AList.put (AList.put (AList.put st.store st.next ⟨[], m⟩) st.next ⟨cont, m⟩) i ⟨[], m⟩,
        st.next + 1⟩, ⟨i, 0⟩) := by
    unfold copyTruncateI
    simp only [hpath, hino, hdst, AList.look_put_self, Option.getD_some, List.drop_zero,
      writeAt_nil_zero]
  refine ⟨_, hval, ?_, ?_, ?_, ?_, ?_, ?_, ?_⟩
  · rw [AList.look_put_ne _ _ _ _ (Ne.symm hsrcdst)]
    exact hpath
  · rw [AList.look_put_self]
  · rw [AList.look_put_self]
  · rw [AList.look_put_ne _ _ _ _ hinext, AList.look_put_self]
  · intro q hq
    rw [AList.look_put_ne _ _ _ _ (Ne.symm hq)]
  · intro j hji hjn
    rw [AList.look_put_ne _ _ _ _ (Ne.symm hji), AList.look_put_ne _ _ _ _ (Ne.symm hjn),
      AList.look_put_ne _ _ _ _ (Ne.symm hjn)]
  · intro q
    have hlook : AList.look (AList.put (AList.put (AList.put st.store st.next ⟨[], m⟩) st.next
        ⟨cont, m⟩) i ⟨[], m⟩) i = some ⟨[], m⟩ := AList.look_put_self _ _ _
    constructor
    · unfold hWrite
      rw [hlook]
      simp only []
      rw [AList.look_put_self]
      rw [writeAt_nil_zero]
    · unfold hWrite
      rw [hlook]
      simp only []
      rw [AList.look_put_ne _ _ _ _ (Ne.symm hsrcdst)]
      exact hpath

/-- An inode filesystem fixture for C6: one file on inode 7. -/
def c6St : IFS := ⟨[("d/a.log".toList, 7)], [(7, ⟨"boo!\n".toList, 420⟩)], 8⟩

/-- Witness for C6 at the fixture. -/
theorem C6_witness :
    AList.look c6St.paths "d/a.log".toList = some 7 ∧
    AList.look c6St.store 7 = some ⟨"boo!\n".toList, 420⟩ ∧
    AList.look c6St.paths "d/a.bak.log".toList = none ∧
    AList.look c6St.store c6St.next = none ∧
    (∃ st', copyTruncateI "d/a.log".toList "d/a.bak.log".toList c6St = some (st', ⟨7, 0⟩) ∧
      AList.look st'.paths "d/a.log".toList = some 7 ∧
      AList.look st'.store 7 = some ⟨[], 420⟩ ∧
      AList.look st'.paths "d/a.bak.log".toList = some c6St.next ∧
      AList.look st'.store c6St.next = some ⟨"boo!\n".toList, 420⟩ ∧
      (∀ q, q ≠ "d/a.bak.log".toList →
        AList.look st'.paths q = AList.look c6St.paths q) ∧
      (∀ j, j ≠ 7 → j ≠ c6St.next → AList.look st'.store j = AList.look c6St.store j) ∧
      (∀ q : Str, AList.look ((hWrite st' ⟨7, 0⟩ q).1.store) 7 = some ⟨q, 420⟩ ∧
                  AList.look ((hWrite st' ⟨7, 0⟩ q).1.paths) "d/a.log".toList = some 7)) :=
  ⟨by decide, by decide, by decide, by decide,
    C6_copyTruncate_same_file "d/a.log".toList "d/a.bak.log".toList c6St 7 "boo!\n".toList 420
      (by decide) (by decide) (by decide) (by decide)⟩

/-! ### The sequential cascade (claim C3)

`cascadeFS_char` characterizes the cascade on a well-formed backup
family: if exactly the indices `i..k` exist (with the contents given by
`cs`), the cascade shifts every one of them up to `i+1..k+1`, frees
index `i`, and touches nothing else. -/

theorem cascadeFS_char (name : Str) (cs : Nat → Str) (k : Nat) :
    ∀ (fuel i : Nat) (fs : FSys), 1 ≤ i → k + 2 ≤ i + fuel →
    (∀ j, i ≤ j → AList.look fs (seqName name j) = if j ≤ k then some (cs j) else none) →
    (∀ j, i ≤ j → AList.look (cascadeFS name i fuel fs) (seqName name j) =
      if i + 1 ≤ j ∧ j ≤ k + 1 then some (cs (j - 1)) else none) ∧
    (∀ q, (∀ j, i ≤ j → q ≠ seqName name j) →
      AList.look (cascadeFS name i fuel fs) q = AList.look fs q) := by
  intro fuel
  induction fuel with
  | zero =>
    intro i fs hi hfuel H
    refine ⟨?_, fun q hq => rfl⟩
    intro j hj
    rw [show cascadeFS name i 0 fs = fs from rfl, H j hj]
    rw [if_neg (by omega : ¬ j ≤ k), if_neg (by omega : ¬ (i + 1 ≤ j ∧ j ≤ k + 1))]
  | succ f ih =>
    intro i fs hi hfuel H
    by_cases hik : i ≤ k
    · have hsrc : AList.look fs (seqName name i) = some (cs i) := by
        rw [H i (le_refl i), if_pos hik]
      by_cases hik2 : i + 1 ≤ k
      · -- the next index also exists: recurse, then rename i to i+1
        have hdst : AList.look fs (seqName name (i + 1)) = some (cs (i + 1)) := by
          rw [H (i + 1) (by omega), if_pos hik2]
        obtain ⟨ihchar, ihframe⟩ := ih (i + 1) fs (by omega) (by omega)
          (fun j hj => H j (by omega))
        have hsrc1 : AList.look (cascadeFS name (i + 1) f fs) (seqName name i)
            = some (cs i) := by
          rw [ihframe _ (fun j hj heq => by have := seqName_inj heq; omega)]
          exact hsrc
        have hcas : cascadeFS name i (f + 1) fs
            = AList.put (AList.del (cascadeFS name (i + 1) f fs) (seqName name i))
                (seqName name (i + 1)) (cs i) := by
          rw [cascadeFS]
          simp only [hasFile, hsrc, hdst, Option.isSome_some, if_true]
          simp only [renameFS, hsrc1]
        rw [hcas]
        constructor
        · intro j hj
          rcases Nat.lt_or_ge i j with hij | hij
          · rcases Nat.lt_or_ge (i + 1) j with hij2 | hij2
            · have hne1 : seqName name (i + 1) ≠ seqName name j := fun h => by
                have := seqName_inj h; omega
              have hne2 : seqName name i ≠ seqName name j := fun h => by
                have := seqName_inj h; omega
              rw [AList.look_put_ne _ _ _ _ hne1, AList.look_del_ne _ _ _ hne2,
                ihchar j (by omega)]
              by_cases hjk : j ≤ k + 1
              · rw [if_pos ⟨by omega, hjk⟩, if_pos ⟨by omega, hjk⟩]
              · rw [if_neg (by omega), if_neg (by omega)]
            · have hj1 : j = i + 1 := by omega
              subst hj1
              rw [AList.look_put_self, if_pos ⟨by omega, by omega⟩]
              simp
          · have hj0 : j = i := by omega
            subst hj0
            have hne : seqName name (j + 1) ≠ seqName name j := fun h => by
              have := seqName_inj h; omega
            rw [AList.look_put_ne _ _ _ _ hne, AList.look_del_self,
              if_neg (by omega : ¬ (j + 1 ≤ j ∧ j ≤ k + 1))]
        · intro q hq
          have hq1 : seqName name (i + 1) ≠ q := Ne.symm (hq (i + 1) (by omega))
          have hq0 : seqName name i ≠ q := Ne.symm (hq i (le_refl i))
          rw [AList.look_put_ne _ _ _ _ hq1, AList.look_del_ne _ _ _ hq0]
          exact ihframe q (fun j hj => hq j (by omega))
      · -- index i is the highest one: a single rename i to i+1
        have hdst : AList.look fs (seqName name (i + 1)) = none := by
          rw [H (i + 1) (by omega), if_neg (by omega)]
        have hcas : cascadeFS name i (f + 1) fs
            = AList.put (AList.del fs (seqName name i)) (seqName name (i + 1)) (cs i) := by
          rw [cascadeFS]
          simp only [hasFile, hsrc, hdst, Option.isSome_some, Option.isSome_none, if_true,
            Bool.false_eq_true, if_false]
          simp only [renameFS, hsrc]
        rw [hcas]
        constructor
        · intro j hj
          rcases Nat.lt_or_ge i j with hij | hij
          · rcases Nat.lt_or_ge (i + 1) j with hij2 | hij2
            · have hne1 : seqName name (i + 1) ≠ seqName name j := fun h => by
                have := seqName_inj h; omega
              have hne2 : seqName name i ≠ seqName name j := fun h => by
                have := seqName_inj h; omega
              rw [AList.look_put_ne _ _ _ _ hne1, AList.look_del_ne _ _ _ hne2, H j (by omega)]
              rw [if_neg (by omega : ¬ j ≤ k), if_neg (by omega : ¬ (i + 1 ≤ j ∧ j ≤ k + 1))]
            · have hj1 : j = i + 1 := by omega
              subst hj1
              rw [AList.look_put_self, if_pos ⟨by omega, by omega⟩]
              simp
          · have hj0 : j = i := by omega
            subst hj0
            have hne : seqName name (j + 1) ≠ seqName name j := fun h => by
              have := seqName_inj h; omega
            rw [AList.look_put_ne _ _ _ _ hne, AList.look_del_self,
              if_neg (by omega : ¬ (j + 1 ≤ j ∧ j ≤ k + 1))]
        · intro q hq
          have hq1 : seqName name (i + 1) ≠ q := Ne.symm (hq (i + 1) (by omega))
          have hq0 : seqName name i ≠ q := Ne.symm (hq i (le_refl i))
          rw [AList.look_put_ne _ _ _ _ hq1, AList.look_del_ne _ _ _ hq0]
    · -- no file at index i: the cascade is the identity
      have hsrc : AList.look fs (seqName name i) = none := by
        rw [H i (le_refl i), if_neg hik]
      have hcas : cascadeFS name i (f + 1) fs = fs := by
        rw [cascadeFS]
        simp [hasFile, hsrc]
      rw [hcas]
      refine ⟨?_, fun q hq => rfl⟩
      intro j hj
      rw [H j hj]
      rw [if_neg (by omega : ¬ j ≤ k), if_neg (by omega : ¬ (i + 1 ≤ j ∧ j ≤ k + 1))]

/-- Both backup strategies agree at the path level when the backup path
is fresh: the backup path receives the old active content and the
active path is left empty; nothing else changes. -/
theorem doMoveFS_char (src dst : Str) (ct : Bool) (fs : FSys) (cont : Str)
    (hsrc : AList.look fs src = some cont) (hdst : AList.look fs dst = none) :
    AList.look (doMoveFS src dst ct fs) src = some [] ∧
    AList.look (doMoveFS src dst ct fs) dst = some cont ∧
    (∀ q, q ≠ src → q ≠ dst → AList.look (doMoveFS src dst ct fs) q = AList.look fs q) := by
  have hne : src ≠ dst := fun h => by rw [h, hdst] at hsrc; exact Option.noConfusion hsrc
  unfold doMoveFS
  by_cases hct : ct
  · rw [if_pos hct]
    unfold copyTruncFS
    rw [hsrc]
    simp only [hdst, Option.getD_none, List.drop_nil, List.append_nil]
    refine ⟨AList.look_put_self _ _ _, ?_, ?_⟩
    · rw [AList.look_put_ne _ _ _ _ hne, AList.look_put_self]
    · intro q hq1 hq2
      rw [AList.look_put_ne _ _ _ _ (Ne.symm hq1), AList.look_put_ne _ _ _ _ (Ne.symm hq2)]
  · rw [if_neg hct]
    unfold moveCreateFS
    rw [hsrc]
    refine ⟨AList.look_put_self _ _ _, ?_, ?_⟩
    · rw [AList.look_put_ne _ _ _ _ hne, AList.look_put_self]
    · intro q hq1 hq2
      rw [AList.look_put_ne _ _ _ _ (Ne.symm hq1), AList.look_put_ne _ _ _ _ (Ne.symm hq2),
        AList.look_del_ne _ _ _ (Ne.symm hq1)]

/-- Characterization of one `backupSequential` pass on a well-formed
state: backups `1..k` (capped by `MaxBackups` when it is nonzero)
become `1..min (k+1) M` (or `1..k+1` with no cap), the newest content
sits at index 1, the active path is freshly empty, and nothing else is
touched. -/
theorem backupSeqFS_char (c : Cfg) (cs : Nat → Str) (k fuel : Nat) (fs : FSys) (c₀ : Str)
    (hname : AList.look fs c.filename = some c₀)
    (hseq : ∀ j, 1 ≤ j →
      AList.look fs (seqName c.filename j) = if j ≤ k then some (cs j) else none)
    (hcap : c.maxBackups = 0 ∨ k ≤ c.maxBackups)
    (hfuel : k + 2 ≤ 1 + fuel) :
    AList.look (backupSeqFS c fuel fs) c.filename = some [] ∧
    (∀ j, 1 ≤ j → AList.look (backupSeqFS c fuel fs) (seqName c.filename j) =
      if j ≤ (if c.maxBackups = 0 then k + 1 else min (k + 1) c.maxBackups) then
        some (if j = 1 then c₀ else cs (j - 1))
      else none) ∧
    (∀ q, q ≠ c.filename → (∀ j, 1 ≤ j → q ≠ seqName c.filename j) →
      AList.look (backupSeqFS c fuel fs) q = AList.look fs q) := by
  set name := c.filename with hnm
  -- the state after the conditional deletion of index MaxBackups,
  -- well-formed with bound k1
  have hmain : ∀ (fs1 : FSys) (k1 : Nat), k1 ≤ k →
      AList.look fs1 name = some c₀ →
      (∀ j, 1 ≤ j → AList.look fs1 (seqName name j) = if j ≤ k1 then some (cs j) else none) →
      AList.look (doMoveFS name (seqName name 1) c.copyTruncate (cascadeFS name 1 fuel fs1))
        name = some [] ∧
      (∀ j, 1 ≤ j →
        AList.look (doMoveFS name (seqName name 1) c.copyTruncate (cascadeFS name 1 fuel fs1))
          (seqName name j) =
        if j ≤ k1 + 1 then some (if j = 1 then c₀ else cs (j - 1)) else none) ∧
      (∀ q, q ≠ name → (∀ j, 1 ≤ j → q ≠ seqName name j) →
        AList.look (doMoveFS name (seqName name 1) c.copyTruncate (cascadeFS name 1 fuel fs1))
          q = AList.look fs1 q) := by
    intro fs1 k1 hk1 hn1 hs1
    obtain ⟨cchar, cframe⟩ := cascadeFS_char name cs k1 fuel 1 fs1 (le_refl 1) (by omega) hs1
    have hcname : AList.look (cascadeFS name 1 fuel fs1) name = some c₀ := by
      rw [cframe name (fun j hj heq => seqName_ne_base name j heq.symm)]
      exact hn1
    have hcone : AList.look (cascadeFS name 1 fuel fs1) (seqName name 1) = none := by
      rw [cchar 1 (le_refl 1), if_neg (by omega)]
    obtain ⟨dm1, dm2, dm3⟩ :=
      doMoveFS_char name (seqName name 1) c.copyTruncate _ c₀ hcname hcone
    refine ⟨dm1, ?_, ?_⟩
    · intro j hj
      by_cases hj1 : j = 1
      · subst hj1
        rw [dm2, if_pos (by omega)]
        simp
      · have hnej : seqName name j ≠ name := seqName_ne_base name j
        have hnej1 : seqName name j ≠ seqName name 1 := fun h => hj1 (seqName_inj h)
        rw [dm3 _ hnej hnej1, cchar j hj]
        by_cases hjk : j ≤ k1 + 1
        · rw [if_pos ⟨by omega, hjk⟩, if_pos hjk, if_neg hj1]
        · rw [if_neg (by omega), if_neg hjk]
    · intro q hq hqs
      rw [dm3 q hq (hqs 1 (le_refl 1))]
      exact cframe q (fun j hj => hqs j hj)
  unfold backupSeqFS
  by_cases hM : c.maxBackups = 0
  · rw [if_pos hM]
    have := hmain fs k (le_refl k) hname hseq
    simpa [hM] using this
  · have hMk : k ≤ c.maxBackups := hcap.resolve_left hM
    by_cases hkM : k = c.maxBackups
    · -- the top slot is occupied: it is removed before the cascade
      have hex : hasFile fs (seqName name c.maxBackups) = true := by
        unfold hasFile
        rw [hseq c.maxBackups (by omega), if_pos (by omega)]
        rfl
      simp only [if_neg hM, hex, reduceIte]
      have hdel1 : AList.look (AList.del fs (seqName name c.maxBackups)) name = some c₀ := by
        rw [AList.look_del_ne _ _ _ (seqName_ne_base name c.maxBackups)]
        exact hname
      have hdel2 : ∀ j, 1 ≤ j → AList.look (AList.del fs (seqName name c.maxBackups))
          (seqName name j) = if j ≤ k - 1 then some (cs j) else none := by
        intro j hj
        by_cases hjM : j = c.maxBackups
        · subst hjM
          rw [AList.look_del_self, if_neg (by omega)]
        · have : seqName name c.maxBackups ≠ seqName name j := fun h => hjM (seqName_inj h).symm
          rw [AList.look_del_ne _ _ _ this, hseq j hj]
          by_cases hjk : j ≤ k - 1
          · rw [if_pos (by omega), if_pos hjk]
          · rw [if_neg (by omega), if_neg hjk]
      have := hmain (AList.del fs (seqName name c.maxBackups)) (k - 1) (by omega) hdel1 hdel2
      obtain ⟨m1, m2, m3⟩ := this
      refine ⟨m1, ?_, ?_⟩
      · intro j hj
        rw [m2 j hj]
        have : k - 1 + 1 = min (k + 1) c.maxBackups := by omega
        rw [this]
      · intro q hq hqs
        rw [m3 q hq hqs]
        rw [AList.look_del_ne _ _ _ (Ne.symm (hqs c.maxBackups (by omega)))]
  -- the top slot is free: no deletion happens
    · have hex : hasFile fs (seqName name c.maxBackups) = false := by
        unfold hasFile
        rw [hseq c.maxBackups (by omega), if_neg (by omega)]
        rfl
      simp only [if_neg hM, hex, Bool.false_eq_true, reduceIte]
      have := hmain fs k (le_refl k) hname hseq
      obtain ⟨m1, m2, m3⟩ := this
      refine ⟨m1, ?_, m3⟩
      intro j hj
      rw [m2 j hj]
      have : k + 1 = min (k + 1) c.maxBackups := by omega
      rw [← this]

/-- C3: under the sequential naming scheme with `MaxBackups = M > 0`,
after a completed rotation on a well-formed state (backups at exactly
the contiguous indices `1..k` with `k ≤ M`) the backups sit at exactly
the contiguous indices `1..min (M, k+1)` with no gaps, no index exceeds
`M`, the newest backup content (the pre-rotation active content) is at
index 1, and each older backup moved up by one slot; nothing outside
the active file and its indexed backups changes. -/
theorem C3_sequential_contiguous (c : Cfg) (fuel k : Nat) (st : LogState) (c₀ : Str)
    (cs : Nat → Str)
    (hseq : c.sequential = true) (hM : c.maxBackups ≠ 0)
    (hname : AList.look st.fs c.filename = some c₀)
    (hbk : ∀ j, 1 ≤ j →
      AList.look st.fs (seqName c.filename j) = if j ≤ k then some (cs j) else none)
    (hcap : k ≤ c.maxBackups)
    (hfuel : k + 2 ≤ 1 + fuel) :
    ∃ st', rotateFS c fuel true st = some (st', []) ∧
      st'.lines = 0 ∧ st'.fileOpen = true ∧
      AList.look st'.fs c.filename = some [] ∧
      (∀ j, 1 ≤ j → AList.look st'.fs (seqName c.filename j) =
        if j ≤ min (k + 1) c.maxBackups then some (if j = 1 then c₀ else cs (j - 1)) else none) ∧
      (∀ q, q ≠ c.filename → (∀ j, 1 ≤ j → q ≠ seqName c.filename j) →
        AList.look st'.fs q = AList.look st.fs q) := by
  have hhas : hasFile st.fs c.filename = true := by
    unfold hasFile
    rw [hname]
    rfl
  obtain ⟨m1, m2, m3⟩ := backupSeqFS_char c cs k fuel st.fs c₀ hname hbk (Or.inr hcap) hfuel
  have hrot : rotateFS c fuel true st =
      some ({ fs := backupSeqFS c fuel st.fs, lines := 0, fileOpen := true }, []) := by
    unfold rotateFS backupFS
    simp only [hhas, hseq, reduceIte]
  refine ⟨_, hrot, rfl, rfl, m1, ?_, m3⟩
  intro j hj
  rw [m2 j hj, if_neg hM]

/-- The C3 fixture configuration: sequential scheme, cap of 2 backups. -/
def c3Cfg : Cfg := ⟨"d/foobar.log".toList, 1, 2, false, true, ⟨2020, 10, 20, 15, 4, 5, 123⟩⟩

/-- The C3 fixture state: the active file plus one backup at index 1. -/
def c3St : LogState :=
  ⟨[("d/foobar.log".toList, "three!\n".toList), ("d/foobar.log.1".toList, "two!\n".toList)],
   1, true⟩

theorem c3St_wf : ∀ j, 1 ≤ j → AList.look c3St.fs (seqName c3Cfg.filename j)
    = if j ≤ 1 then some ((fun _ => "two!\n".toList) j) else none := by
  intro j hj
  by_cases hj1 : j = 1
  · subst hj1
    rw [if_pos (le_refl 1)]
    decide
  · rw [if_neg (by omega)]
    have h1 : "d/foobar.log".toList ≠ seqName c3Cfg.filename j := fun h =>
      seqName_ne_base c3Cfg.filename j h.symm
    have h2 : "d/foobar.log.1".toList ≠ seqName c3Cfg.filename j := by
      intro h
      have h3 : seqName c3Cfg.filename 1 = seqName c3Cfg.filename j := by
        rw [← h]
        decide
      exact hj1 (seqName_inj h3).symm
    show AList.look c3St.fs (seqName c3Cfg.filename j) = none
    have hfs : c3St.fs = [("d/foobar.log".toList, "three!\n".toList),
        ("d/foobar.log.1".toList, "two!\n".toList)] := rfl
    rw [hfs, AList.look_cons, if_neg h1, AList.look_cons, if_neg h2, AList.look_nil]

/-- Witness for C3: one rotation of the fixture, `k = 1`, `M = 2`. -/
theorem C3_witness :
    c3Cfg.sequential = true ∧ c3Cfg.maxBackups ≠ 0 ∧
    AList.look c3St.fs c3Cfg.filename = some ("three!\n".toList) ∧
    (∀ j, 1 ≤ j → AList.look c3St.fs (seqName c3Cfg.filename j)
      = if j ≤ 1 then some ((fun _ => "two!\n".toList) j) else none) ∧
    1 ≤ c3Cfg.maxBackups ∧ 1 + 2 ≤ 1 + 3 ∧
    (∃ st', rotateFS c3Cfg 3 true c3St = some (st', []) ∧
      st'.lines = 0 ∧ st'.fileOpen = true ∧
      AList.look st'.fs c3Cfg.filename = some [] ∧
      (∀ j, 1 ≤ j → AList.look st'.fs (seqName c3Cfg.filename j) =
        if j ≤ min (1 + 1) c3Cfg.maxBackups then
          some (if j = 1 then "three!\n".toList else (fun _ => "two!\n".toList) (j - 1))
        else none) ∧
      (∀ q, q ≠ c3Cfg.filename → (∀ j, 1 ≤ j → q ≠ seqName c3Cfg.filename j) →
        AList.look st'.fs q = AList.look c3St.fs q)) :=
  ⟨rfl, by decide, by decide, c3St_wf, by decide, by omega,
    C3_sequential_contiguous c3Cfg 3 1 c3St ("three!\n".toList) (fun _ => "two!\n".toList)
      rfl (by decide) (by decide) c3St_wf (by decide) (by omega)⟩

/-! ### Claim C1: the write threshold and its rotation -/

/-- C1: for a logger with an open active file, `Write` first checks the
counter.  If `lines + 1` exceeds the max, exactly one rotation happens
before the bytes are written: afterwards the counter is exactly 1, the
active file holds exactly the triggering payload, the newest backup
(`<name>.1` sequentially, the timestamped name otherwise) holds the
prior active content, and no other file changes except the sequential
renumbering.  If the threshold is not exceeded, the payload is appended
and the counter increments by exactly one - in both cases by exactly
one per call, whatever delimiters `p` contains. -/
theorem C1_write_threshold_rotation (c : Cfg) (fuel k : Nat) (st : LogState) (p : Str)
    (c₀ : Str) (cs : Nat → Str)
    (hOpen : st.fileOpen = true)
    (hname : AList.look st.fs c.filename = some c₀)
    (hsch : if c.sequential then
        (∀ j, 1 ≤ j → AList.look st.fs (seqName c.filename j)
          = if j ≤ k then some (cs j) else none) ∧
        (c.maxBackups = 0 ∨ k ≤ c.maxBackups) ∧ k + 2 ≤ 1 + fuel
      else AList.look st.fs (tsBackupName c) = none) :
    (st.lines + 1 > c.maxL →
      ∃ st' pend, writeFS c fuel true st p p.length false = some ⟨st', p.length, false, pend⟩ ∧
        st'.lines = 1 ∧ st'.fileOpen = true ∧
        AList.look st'.fs c.filename = some p ∧
        AList.look st'.fs (if c.sequential then seqName c.filename 1 else tsBackupName c)
          = some c₀ ∧
        (c.sequential = false → ∀ q, q ≠ c.filename → q ≠ tsBackupName c →
          AList.look st'.fs q = AList.look st.fs q) ∧
        (c.sequential = true → ∀ j, 2 ≤ j → AList.look st'.fs (seqName c.filename j) =
          if j ≤ (if c.maxBackups = 0 then k + 1 else min (k + 1) c.maxBackups)
          then some (cs (j - 1)) else none) ∧
        (c.sequential = true → ∀ q, q ≠ c.filename →
          (∀ j, 1 ≤ j → q ≠ seqName c.filename j) →
          AList.look st'.fs q = AList.look st.fs q)) ∧
    (st.lines + 1 ≤ c.maxL →
      writeFS c fuel true st p p.length false = some
        ⟨{ fs := AList.put st.fs c.filename (c₀ ++ p), lines := st.lines + 1,
           fileOpen := true }, p.length, false, []⟩) := by
  have hstep1 : (if st.fileOpen = true then some (st, ([] : List Str))
      else openEONFS c fuel true st) = some (st, []) := by
    rw [hOpen]
    simp
  constructor
  · -- the threshold is exceeded: rotate once, then write
    intro hthr
    obtain ⟨pend0, hrot⟩ := rotateFS_of_hasFile c fuel true st c₀ hname
    have hw : writeFS c fuel true st p p.length false = some
        ⟨{ fs := AList.put (backupFS c fuel st.fs) c.filename
              ((AList.look (backupFS c fuel st.fs) c.filename).getD [] ++ p.take p.length),
           lines := 0 + 1, fileOpen := true }, p.length, false, [] ++ pend0⟩ := by
      unfold writeFS
      rw [hstep1]
      simp only [if_pos hthr, hrot]
    by_cases hsq : c.sequential = true
    · -- sequential scheme
      have hsch' := hsch
      rw [if_pos hsq] at hsch'
      obtain ⟨hbk, hcap, hfuel⟩ := hsch'
      obtain ⟨m1, m2, m3⟩ := backupSeqFS_char c cs k fuel st.fs c₀ hname hbk hcap hfuel
      have hbkFS : backupFS c fuel st.fs = backupSeqFS c fuel st.fs := by
        unfold backupFS
        rw [if_pos hsq]
      rw [hbkFS] at hw
      rw [m1] at hw
      simp only [Option.getD_some, List.nil_append, List.take_length] at hw
      refine ⟨_, _, hw, rfl, rfl, AList.look_put_self _ _ _, ?_, ?_, ?_, ?_⟩
      · -- the newest backup is at index 1 and holds the prior content
        rw [if_pos hsq]
        rw [AList.look_put_ne _ _ _ _ (Ne.symm (seqName_ne_base c.filename 1)), m2 1 (le_refl 1)]
        rw [if_pos (show (1 : Nat) ≤ if c.maxBackups = 0 then k + 1 else min (k + 1) c.maxBackups
          from by
            by_cases hM : c.maxBackups = 0
            · rw [if_pos hM]; omega
            · rw [if_neg hM]; omega)]
        simp
      · intro hfalse
        rw [hfalse] at hsq
        exact absurd hsq (by simp)
      · intro _ j hj
        rw [AList.look_put_ne _ _ _ _ (Ne.symm (seqName_ne_base c.filename j)), m2 j (by omega)]
        by_cases hjb : j ≤ (if c.maxBackups = 0 then k + 1 else min (k + 1) c.maxBackups)
        · rw [if_pos hjb, if_pos hjb, if_neg (by omega : ¬ j = 1)]
        · rw [if_neg hjb, if_neg hjb]
      · intro _ q hq hqs
        rw [AList.look_put_ne _ _ _ _ (Ne.symm hq)]
        exact m3 q hq hqs
    · -- timestamped scheme
      have hdst : AList.look st.fs (tsBackupName c) = none := by
        have hsch' := hsch
        rw [if_neg hsq] at hsch'
        exact hsch'
      obtain ⟨dm1, dm2, dm3⟩ := doMoveFS_char c.filename (tsBackupName c) c.copyTruncate
        st.fs c₀ hname hdst
      have hbkFS : backupFS c fuel st.fs
          = doMoveFS c.filename (tsBackupName c) c.copyTruncate st.fs := by
        unfold backupFS
        rw [if_neg hsq]
      rw [hbkFS] at hw
      rw [dm1] at hw
      simp only [Option.getD_some, List.nil_append, List.take_length] at hw
      have hnets : tsBackupName c ≠ c.filename := fun h => by
        rw [← h, hdst] at hname
        exact Option.noConfusion hname
      refine ⟨_, _, hw, rfl, rfl, AList.look_put_self _ _ _, ?_, ?_, ?_, ?_⟩
      · rw [if_neg hsq]
        rw [AList.look_put_ne _ _ _ _ (Ne.symm hnets)]
        exact dm2
      · intro _ q hq hqts
        rw [AList.look_put_ne _ _ _ _ (Ne.symm hq)]
        exact dm3 q hq hqts
      · intro htrue
        rw [htrue] at hsq
        exact absurd rfl hsq
      · intro htrue
        rw [htrue] at hsq
        exact absurd rfl hsq
  · -- under the threshold: append only, counter up by one
    intro hthr
    unfold writeFS
    rw [hstep1]
    simp only [if_neg (by omega : ¬ st.lines + 1 > c.maxL)]
    rw [show (AList.look st.fs c.filename).getD [] = c₀ from by rw [hname]; rfl]
    simp only [List.take_length, List.append_nil]
    rw [hOpen]

/-- Witness for C1: timestamped scheme, `MaxLines = 1`, one line
already written, so the next write triggers a rotation. -/
theorem C1_witness :
    wSt.fileOpen = true ∧
    AList.look wSt.fs wCfg.filename = some "boo!\n".toList ∧
    (if wCfg.sequential then
        (∀ j, 1 ≤ j → AList.look wSt.fs (seqName wCfg.filename j)
          = if j ≤ 0 then some ((fun _ => ([] : Str)) j) else none) ∧
        (wCfg.maxBackups = 0 ∨ 0 ≤ wCfg.maxBackups) ∧ 0 + 2 ≤ 1 + 1
      else AList.look wSt.fs (tsBackupName wCfg) = none) ∧
    ((wSt.lines + 1 > wCfg.maxL →
      ∃ st' pend, writeFS wCfg 1 true wSt "x\n".toList ("x\n".toList).length false
          = some ⟨st', ("x\n".toList).length, false, pend⟩ ∧
        st'.lines = 1 ∧ st'.fileOpen = true ∧
        AList.look st'.fs wCfg.filename = some "x\n".toList ∧
        AList.look st'.fs (if wCfg.sequential then seqName wCfg.filename 1 else tsBackupName wCfg)
          = some "boo!\n".toList ∧
        (wCfg.sequential = false → ∀ q, q ≠ wCfg.filename → q ≠ tsBackupName wCfg →
          AList.look st'.fs q = AList.look wSt.fs q) ∧
        (wCfg.sequential = true → ∀ j, 2 ≤ j → AList.look st'.fs (seqName wCfg.filename j) =
          if j ≤ (if wCfg.maxBackups = 0 then 0 + 1 else min (0 + 1) wCfg.maxBackups)
          then some ((fun _ => ([] : Str)) (j - 1)) else none) ∧
        (wCfg.sequential = true → ∀ q, q ≠ wCfg.filename →
          (∀ j, 1 ≤ j → q ≠ seqName wCfg.filename j) →
          AList.look st'.fs q = AList.look wSt.fs q)) ∧
    (wSt.lines + 1 ≤ wCfg.maxL →
      writeFS wCfg 1 true wSt "x\n".toList ("x\n".toList).length false = some
        ⟨{ fs := AList.put wSt.fs wCfg.filename ("boo!\n".toList ++ "x\n".toList),
           lines := wSt.lines + 1, fileOpen := true }, ("x\n".toList).length, false, []⟩)) :=
  ⟨rfl, by decide,
    by rw [if_neg (by decide : ¬ wCfg.sequential = true)]; decide,
    C1_write_threshold_rotation wCfg 1 0 wSt "x\n".toList "boo!\n".toList (fun _ => []) rfl
      (by decide) (by rw [if_neg (by decide : ¬ wCfg.sequential = true)]; decide)⟩

end Nanojack
